import Mathlib

/-!
Shallow embedding of the spectrogram generator in `src/sonogen.cc`
(jonner/soundprint).

Conventions of the embedding:
* C `double`/`float` values are modelled as `ℚ` (exact arithmetic standing
  for the floating computation, which the spec itself treats "within
  floating tolerance").
* C `int`/`gint64` values are modelled as `ℤ`; a C cast `double → int`
  (truncation toward zero) is `truncToInt`; C integer division is
  `Int.tdiv` (truncation toward zero).
* Pixel mutation is modelled as the list of writes the code performs.
* Fallible operations return `Option`.
-/

namespace Sonogen

/-- Truncation toward zero of a rational, the semantics of a C
`static_cast<int>(double)`. For non-negative values this is the floor. -/
def truncToInt (q : ℚ) : Int := if 0 ≤ q then ⌊q⌋ else ⌈q⌉

/-- The list of integers `lo, lo+1, ..., hi-1`, the columns visited by a C
loop `for (int i = lo; i < hi; i++)`. -/
def intRange (lo hi : Int) : List Int :=
  (List.range (hi - lo).toNat).map (fun n => lo + Nat.cast n)

/-- Application state machine of `App` (sonogen.cc:60-66). -/
inductive AppState where
  | STATE_START
  | STATE_DURATION
  | STATE_SEEK
  | STATE_GENERATE
  | STATE_DONE
deriving DecidableEq

open AppState

/-- Embedding of `App::state_done` (sonogen.cc:569-588): the state reached
after the current state's completion event fires. In `STATE_START` the
machine advances only once both `m_prerolled` and `m_decoder_pad` hold;
`STATE_DONE` has no case in the switch and stays put. -/
def state_done (m_state : AppState) (m_prerolled m_decoder_pad : Bool) : AppState :=
  match m_state with
  | STATE_START => if m_prerolled && m_decoder_pad then STATE_DURATION else STATE_START
  | STATE_DURATION => STATE_SEEK
  | STATE_SEEK => STATE_GENERATE
  | STATE_GENERATE => STATE_DONE
  | STATE_DONE => STATE_DONE

/-! ### The column painter (`App::paint_spectrum_at_offset`, sonogen.cc:899-951) -/

/-- Breakpoint of the two-segment alpha curve (`const float TX = 0.6`,
sonogen.cc:908). -/
def TX : ℚ := 6/10

/-- Target value at the breakpoint (`const float TY = 0.85`,
sonogen.cc:909). -/
def TY : ℚ := 85/100

/-- Multiplier of the parabolic first segment,
`k = (1 / TX) * (1 / TX) * TY` (sonogen.cc:911). -/
def kconst : ℚ := (1 / TX) * (1 / TX) * TY

/-- Slope of the second segment, `m = (1.0 - TY) / (1.0 - TX)`
(sonogen.cc:913). -/
def mconst : ℚ := (1 - TY) / (1 - TX)

/-- Offset of the second segment, `b = TY - m * TX` (sonogen.cc:914). -/
def bconst : ℚ := TY - mconst * TX

/-- Normalised shade of one band,
`shade = (v - m_options.noise_floor) / std::abs(m_options.noise_floor)`
(sonogen.cc:923). -/
def shadeOf (noise_floor v : ℚ) : ℚ := (v - noise_floor) / |noise_floor|

/-- The two-segment shading curve applied to a positive shade
(sonogen.cc:933-940): parabolic below the breakpoint `TX`, linear at and
above it. -/
def alphaCurve (shade : ℚ) : ℚ :=
  if shade < TX then kconst * shade * shade else mconst * shade + bconst

/-- Clamp to `[0,1]` and scale to a byte,
`(std::max (0.0, std::min (1.0, shade)) * 0xFF)` assigned to an
`unsigned int` (sonogen.cc:943). -/
def clampByte (shade : ℚ) : Int := ⌊(max 0 (min 1 shade)) * 255⌋

/-- One pixel write performed by the painter: the raw buffer address
`data + (height - 1 - i) * stride + offset * 4` decomposes as row
`height - 1 - i` and column `offset`; `alpha` is the byte stored in
`pixel[3]` (the RGB bytes are zeroed). -/
structure PixelWrite where
  row : Int
  col : Int
  alpha : Int
deriving DecidableEq

/-- The loop body of `App::paint_spectrum_at_offset` (sonogen.cc:919-948):
band `i` with raw shade `≤ 0` is skipped (pixel untouched), otherwise the
curved, clamped byte is written at row `height - 1 - i`, column `offset`. -/
def paintLoop (height : Int) (noise_floor : ℚ) (offset : Int) :
    Nat → List ℚ → List PixelWrite
  | _, [] => []
  | i, v :: rest =>
    if 0 < shadeOf noise_floor v then
      { row := height - 1 - Nat.cast i, col := offset,
        alpha := clampByte (alphaCurve (shadeOf noise_floor v)) }
        :: paintLoop height noise_floor offset (i + 1) rest
    else
      paintLoop height noise_floor offset (i + 1) rest

/-- Embedding of `App::paint_spectrum_at_offset` (sonogen.cc:899-951): the
band count is clamped to the canvas height (`if (m_options.height < size)
size = m_options.height`), then each band with positive shade produces one
pixel write. `height` is the integral canvas height. Returns the list of
writes performed. -/
def paint_spectrum_at_offset (height : Int) (noise_floor : ℚ) (offset : Int)
    (mags : List ℚ) : List PixelWrite :=
  paintLoop height noise_floor offset 0 (mags.take height.toNat)

/-! ### The spectrum message handler (`App::on_spectrum`, sonogen.cc:953-994) -/

/-- The raw pixel offset of a message,
`int pixel_offset = (seconds * m_options.resolution)` (sonogen.cc:966),
where `seconds` is the message end-timestamp in seconds. -/
def rawOffset (resolution seconds : ℚ) : Int := truncToInt (seconds * resolution)

/-- Result of one `on_spectrum` invocation: the column offsets painted (in
order, each handed to `paint_spectrum_at_offset` together with the current
message's magnitude list), the new value of the function-static `last_px`,
and whether `state_done()` was triggered. -/
structure SpectrumStep where
  painted : List Int
  lastPx : Int
  done : Bool
deriving DecidableEq

/-- Core of `App::on_spectrum` (sonogen.cc:965-993) on an already computed
raw pixel offset: if the offset reaches the configured width, trigger
completion and paint nothing; if it ties with `last_px`, advance by one
(jitter correction); if columns were skipped, backfill them (loop
`for (int i = last_px + 1; i < pixel_offset; i++)`, only when
`last_px != -1`), then paint the (possibly adjusted) offset and store it in
`last_px`. -/
def spectrum_step (width : ℚ) (last_px pixel_offset : Int) : SpectrumStep :=
  if (pixel_offset : ℚ) ≥ width then
    { painted := [], lastPx := last_px, done := true }
  else
    let p := if pixel_offset = last_px then pixel_offset + 1 else pixel_offset
    { painted := (if last_px ≠ -1 then intRange (last_px + 1) p else []) ++ [p],
      lastPx := p,
      done := false }

/-- Embedding of `App::on_spectrum` (sonogen.cc:953-994) for a message with
end-timestamp `seconds` (in seconds), in state GENERATE with the canvas
allocated (`m_cr` non-null). -/
def on_spectrum (width resolution : ℚ) (last_px : Int) (seconds : ℚ) : SpectrumStep :=
  spectrum_step width last_px (rawOffset resolution seconds)

/-- The actual pixel writes of one `on_spectrum` invocation: each painted
column offset is painted by `paint_spectrum_at_offset` with the current
message's magnitude list (sonogen.cc:987-992). -/
def on_spectrum_writes (width resolution : ℚ) (height : Int) (noise_floor : ℚ)
    (last_px : Int) (seconds : ℚ) (mags : List ℚ) : List (Int × List PixelWrite) :=
  (on_spectrum width resolution last_px seconds).painted.map
    (fun c => (c, paint_spectrum_at_offset height noise_floor c mags))

/-- The offsets painted over a whole run of raw offsets, starting from the
given `last_px` (the static initialiser is `-1`, sonogen.cc:965). When a
step triggers completion the run stops (state DONE quits the main loop). -/
def runSpectrumRaw (width : ℚ) : Int → List Int → List Int
  | _, [] => []
  | last_px, r :: rest =>
    if (spectrum_step width last_px r).done then (spectrum_step width last_px r).painted
    else (spectrum_step width last_px r).painted ++
      runSpectrumRaw width (spectrum_step width last_px r).lastPx rest

/-- The column offsets painted for a sequence of magnitude messages with
the given end-timestamps, from a fresh run (`last_px = -1`). -/
def runSpectrum (width resolution : ℚ) (secs : List ℚ) : List Int :=
  runSpectrumRaw width (-1) (secs.map (rawOffset resolution))

/-! ### Analysis configuration (`App::start_pipeline`, sonogen.cc:437-480) -/

/-- `int band_freq = m_options.max_frequency / m_options.height`
(sonogen.cc:457): C truncation of a double quotient. -/
def band_freq (max_frequency height : ℚ) : Int := truncToInt (max_frequency / height)

/-- `int num_bands = (m_sampling_rate / 2) / band_freq` (sonogen.cc:459):
two C integer divisions (truncation toward zero). -/
def num_bands (sampling_rate : Int) (max_frequency height : ℚ) : Int :=
  Int.tdiv (Int.tdiv sampling_rate 2) (band_freq max_frequency height)

/-! ### The level message handler (`App::on_level`, sonogen.cc:1004-1028) -/

/-- State owned by the level recorder: the `std::map<double, double>
m_levels` (modelled as a key-sorted association list) and the running
`m_peak_rms` / `m_min_rms`. -/
structure LevelState where
  levels : List (ℚ × ℚ)
  peak_rms : ℚ
  min_rms : ℚ

/-- Ordered-map insertion with key replacement, the semantics of
`m_levels[seconds] = max_channel` on a `std::map`. -/
def mapInsert (k v : ℚ) : List (ℚ × ℚ) → List (ℚ × ℚ)
  | [] => [(k, v)]
  | (k', v') :: rest =>
    if k < k' then (k, v) :: (k', v') :: rest
    else if k = k' then (k, v) :: rest
    else (k', v') :: mapInsert k v rest

/-- Lookup in the association list modelling `std::map`. -/
def mapLookup (k : ℚ) : List (ℚ × ℚ) → Option ℚ
  | [] => none
  | (k', v') :: rest => if k = k' then some v' else mapLookup k rest

/-- The fold `double max_channel = m_options.noise_floor; ...
max_channel = std::max (max_channel, v)` (sonogen.cc:1010-1015): the
channel maximum clamped below at the noise floor. -/
def max_channel (noise_floor : ℚ) (rms : List ℚ) : ℚ := rms.foldl max noise_floor

/-- Embedding of `App::on_level` (sonogen.cc:1004-1028): store the clamped
channel maximum keyed by the message timestamp (seconds); initialise both
running extrema on the first message (`m_levels.empty()`), otherwise update
them with `max` / `min`. -/
def on_level (noise_floor : ℚ) (st : LevelState) (seconds : ℚ) (rms : List ℚ) :
    LevelState :=
  let mc := max_channel noise_floor rms
  if st.levels = [] then
    { levels := mapInsert seconds mc st.levels, peak_rms := mc, min_rms := mc }
  else
    { levels := mapInsert seconds mc st.levels,
      peak_rms := max mc st.peak_rms,
      min_rms := min mc st.min_rms }

/-- Spec-side definition, following the spec's words: the maximum over the
message's per-channel RMS values alone (no noise-floor clamp); `none` for
an empty channel list. Used to compare the spec's claim with `on_level`. -/
def specChannelsMax : List ℚ → Option ℚ
  | [] => none
  | v :: rest => some (rest.foldl max v)

/-! ### The duration handler (`App::on_duration_changed`, sonogen.cc:332-340) -/

/-- Outcome of one `on_duration_changed` invocation: the new `m_duration`
and whether the handler aborts the run (throws / exits). -/
structure DurationOutcome where
  duration : Int
  fatal : Bool
deriving DecidableEq

/-- Embedding of `App::on_duration_changed` (sonogen.cc:332-340). The
query result is `none` when `gst_element_query_duration` fails. On failure
the code only calls `g_warning` and returns: `m_duration` keeps its
previous value and nothing is thrown, torn down, or exited. -/
def on_duration_changed (m_duration : Int) (query : Option Int) : DurationOutcome :=
  match query with
  | none => { duration := m_duration, fatal := false }
  | some d => { duration := d, fatal := false }

/-! ### Final composition (`App::draw_sonogram`, sonogen.cc:590-863) -/

/-- The amplitude-curve path construction in the grid branch
(sonogen.cc:768-774): after the `line_to` loop over `m_levels`, the code
executes `cr->line_to (m_levels.rbegin ()->first, -dbRange)`
unconditionally. `rbegin ()` of the (key-sorted) map is its last entry;
dereferencing it on an empty map is undefined behaviour, modelled as
`none`. On success, the path visits every entry and closes at the last
key. -/
def draw_levels_path (levels : List (ℚ × ℚ)) : Option (List (ℚ × ℚ) × ℚ) :=
  match levels.getLast? with
  | none => none
  | some e => some (levels, e.1)

/-- Embedding of the control shape of `App::draw_sonogram`
(sonogen.cc:590-863): with the grid enabled the amplitude sub-graph is
rendered (requiring `draw_levels_path`); without it the raw canvas is just
composited over white. `none` models the crash; `some b` a completed
composition (`b` records whether the grid branch ran). -/
def draw_sonogram (draw_grid : Bool) (levels : List (ℚ × ℚ)) : Option Bool :=
  if draw_grid then
    match draw_levels_path levels with
    | none => none
    | some _ => some true
  else some false

/-! ## Supporting lemmas -/

lemma mem_intRange {lo hi c : Int} : c ∈ intRange lo hi ↔ lo ≤ c ∧ c < hi := by
  simp only [intRange, List.mem_map, List.mem_range]
  constructor
  · rintro ⟨n, hn, rfl⟩
    refine ⟨by omega, by omega⟩
  · rintro ⟨h1, h2⟩
    refine ⟨(c - lo).toNat, by omega, by omega⟩

lemma intRange_eq_nil {lo hi : Int} (h : hi ≤ lo) : intRange lo hi = [] := by
  simp [intRange, Int.toNat_of_nonpos (by omega : hi - lo ≤ 0)]

lemma pairwise_intRange (lo hi : Int) : (intRange lo hi).Pairwise (· < ·) := by
  refine List.Pairwise.map _ (fun a b h => ?_) (List.pairwise_lt_range _)
  have h2 : a < b := h
  show lo + Nat.cast a < lo + Nat.cast b
  omega

lemma rawOffset_eq {resolution seconds : ℚ} {n : Int} (h0 : 0 ≤ seconds * resolution)
    (h1 : (n : ℚ) ≤ seconds * resolution) (h2 : seconds * resolution < n + 1) :
    rawOffset resolution seconds = n := by
  rw [rawOffset, truncToInt, if_pos h0, Int.floor_eq_iff]
  exact ⟨h1, h2⟩

lemma spectrum_step_done {width : ℚ} {last_px r : Int} (hw : (r : ℚ) ≥ width) :
    spectrum_step width last_px r = { painted := [], lastPx := last_px, done := true } := by
  rw [spectrum_step, if_pos hw]

lemma spectrum_step_not_done {width : ℚ} {last_px r : Int} (hw : ¬ ((r : ℚ) ≥ width)) :
    spectrum_step width last_px r =
      { painted := (if last_px ≠ -1 then
            intRange (last_px + 1) (if r = last_px then r + 1 else r)
          else []) ++ [if r = last_px then r + 1 else r],
        lastPx := if r = last_px then r + 1 else r,
        done := false } := by
  simp only [spectrum_step, if_neg hw]

lemma runSpectrumRaw_sorted (width : ℚ) (raws : List Int) :
    ∀ last_px : Int,
      raws.Pairwise (· < ·) →
      (∀ r, raws.head? = some r → last_px ≤ r) →
      (runSpectrumRaw width last_px raws).Pairwise (· < ·) ∧
      ∀ c ∈ runSpectrumRaw width last_px raws, last_px < c := by
  induction raws with
  | nil =>
    intro last_px _ _
    simp [runSpectrumRaw]
  | cons r rest ih =>
    intro last_px hp hh
    have hlr : last_px ≤ r := hh r rfl
    rw [List.pairwise_cons] at hp
    obtain ⟨hpr, hprest⟩ := hp
    by_cases hw : ((r : ℚ) ≥ width)
    · rw [runSpectrumRaw, spectrum_step_done hw]
      simp
    · rw [runSpectrumRaw, spectrum_step_not_done hw]
      simp only [Bool.false_eq_true, if_false]
      have hp1 : last_px < (if r = last_px then r + 1 else r) := by
        by_cases h : r = last_px <;> simp [h] <;> omega
      have hple : (if r = last_px then r + 1 else r) ≤ r + 1 := by
        by_cases h : r = last_px <;> simp [h]
      have hmemL : ∀ c ∈ (if last_px ≠ -1 then
            intRange (last_px + 1) (if r = last_px then r + 1 else r)
          else []) ++ [if r = last_px then r + 1 else r],
          last_px < c ∧ c ≤ (if r = last_px then r + 1 else r) := by
        intro c hc
        rcases List.mem_append.mp hc with hc | hc
        · by_cases h : last_px ≠ -1
          · rw [if_pos h] at hc
            have := mem_intRange.mp hc
            omega
          · rw [if_neg h] at hc
            simp at hc
        · have : c = (if r = last_px then r + 1 else r) := List.mem_singleton.mp hc
          omega
      have hpairL : ((if last_px ≠ -1 then
            intRange (last_px + 1) (if r = last_px then r + 1 else r)
          else []) ++ [if r = last_px then r + 1 else r]).Pairwise (· < ·) := by
        rw [List.pairwise_append]
        refine ⟨?_, by simp, ?_⟩
        · by_cases h : last_px ≠ -1
          · rw [if_pos h]; exact pairwise_intRange _ _
          · rw [if_neg h]; exact List.Pairwise.nil
        · intro a ha b hb
          have hb' : b = (if r = last_px then r + 1 else r) := List.mem_singleton.mp hb
          by_cases h : last_px ≠ -1
          · rw [if_pos h] at ha
            have := mem_intRange.mp ha
            omega
          · rw [if_neg h] at ha
            simp at ha
      have ihres := ih (if r = last_px then r + 1 else r) hprest (by
        intro r' hr'
        have hmem : r' ∈ rest := List.mem_of_mem_head? (Option.mem_def.mpr hr')
        have := hpr r' hmem
        omega)
      constructor
      · rw [List.pairwise_append]
        refine ⟨hpairL, ihres.1, ?_⟩
        intro a ha b hb
        have h1 := (hmemL a ha).2
        have h2 := ihres.2 b hb
        omega
      · intro c hc
        rcases List.mem_append.mp hc with hc | hc
        · exact (hmemL c hc).1
        · have := ihres.2 c hc
          omega

lemma getD_take : ∀ (l : List ℚ) (n j : Nat), j < n → (l.take n).getD j 0 = l.getD j 0
  | [], _, _, _ => by simp
  | v :: rest, n + 1, 0, _ => by simp
  | v :: rest, n + 1, j + 1, h => by
    simp only [List.take_succ_cons, List.getD_cons_succ]
    exact getD_take rest n j (by omega)

lemma paintLoop_mem (height : Int) (noise_floor : ℚ) (offset : Int) :
    ∀ (l : List ℚ) (i0 : Nat) (w : PixelWrite),
      w ∈ paintLoop height noise_floor offset i0 l ↔
      ∃ j : Nat, j < l.length ∧ 0 < shadeOf noise_floor (l.getD j 0) ∧
        w = { row := height - 1 - Nat.cast (i0 + j), col := offset,
              alpha := clampByte (alphaCurve (shadeOf noise_floor (l.getD j 0))) } := by
  intro l
  induction l with
  | nil =>
    intro i0 w
    simp [paintLoop]
  | cons v rest ih =>
    intro i0 w
    by_cases h : 0 < shadeOf noise_floor v
    · rw [paintLoop, if_pos h]
      constructor
      · intro hw
        rcases List.mem_cons.mp hw with rfl | hw'
        · exact ⟨0, by simp, h, rfl⟩
        · obtain ⟨j, hj, hs, rfl⟩ := (ih (i0 + 1) w).mp hw'
          refine ⟨j + 1, by simpa using hj, hs, ?_⟩
          have hidx : i0 + 1 + j = i0 + (j + 1) := by omega
          rw [hidx]
          simp only [List.getD_cons_succ]
      · rintro ⟨j, hj, hs, rfl⟩
        match j with
        | 0 => exact List.mem_cons_self _ _
        | j' + 1 =>
          refine List.mem_cons_of_mem _ ((ih (i0 + 1) _).mpr ⟨j', by simpa using hj, hs, ?_⟩)
          have hidx : i0 + 1 + j' = i0 + (j' + 1) := by omega
          rw [hidx]
          simp only [List.getD_cons_succ]
    · rw [paintLoop, if_neg h]
      rw [ih (i0 + 1) w]
      constructor
      · rintro ⟨j, hj, hs, rfl⟩
        refine ⟨j + 1, by simpa using hj, hs, ?_⟩
        have hidx : i0 + 1 + j = i0 + (j + 1) := by omega
        rw [hidx]
        simp only [List.getD_cons_succ]
      · rintro ⟨j, hj, hs, rfl⟩
        match j with
        | 0 => exact absurd hs h
        | j' + 1 =>
          refine ⟨j', by simpa using hj, hs, ?_⟩
          have hidx : i0 + 1 + j' = i0 + (j' + 1) := by omega
          rw [hidx]
          simp only [List.getD_cons_succ]

lemma mapLookup_mapInsert (k v : ℚ) :
    ∀ l : List (ℚ × ℚ), mapLookup k (mapInsert k v l) = some v
  | [] => by simp [mapInsert, mapLookup]
  | (k', v') :: rest => by
    by_cases h1 : k < k'
    · simp [mapInsert, mapLookup, h1]
    · by_cases h2 : k = k'
      · simp [mapInsert, mapLookup, h1, h2]
      · simp [mapInsert, mapLookup, h1, h2, mapLookup_mapInsert k v rest]

lemma floor_intCast_div_intCast (a b : ℤ) (hb : 0 < b) :
    ⌊(a : ℚ) / (b : ℚ)⌋ = a / b := by
  have h1 : ((b.toNat : ℕ) : ℤ) = b := Int.toNat_of_nonneg hb.le
  have h2 : ((b.toNat : ℕ) : ℚ) = (b : ℚ) := by exact_mod_cast congrArg (Int.cast : ℤ → ℚ) h1
  rw [← h2, Rat.floor_intCast_div_natCast, h1]

/-! ## Claim theorems -/

/-- C6: the two-segment shading curve is continuous at the breakpoint: with
the painter's constants, `kconst * TX ^ 2 = mconst * TX + bconst`, both
sides being exactly `TY` (exact in the rational model, hence within any
floating tolerance). -/
theorem alphaCurve_continuous_at_TX :
    kconst * TX ^ 2 = mconst * TX + bconst ∧
    kconst * TX ^ 2 = TY ∧ mconst * TX + bconst = TY := by
  norm_num [kconst, mconst, bconst, TX, TY]

/-- C1 counterexample: three magnitude messages with strictly increasing
end-timestamps 5.25s, 5.5s, 5.75s at resolution 1 all truncate to raw
offset 5. The painted column sequence is `[5, 6, 5]`: it is not
non-decreasing, and column 5 — already painted from the first message — is
repainted with the third message's data (it is painted twice). -/
theorem on_spectrum_repaint_counterexample :
    ((21/4 : ℚ) < 11/2 ∧ (11/2 : ℚ) < 23/4) ∧
    runSpectrum 100 1 [21/4, 11/2, 23/4] = [5, 6, 5] ∧
    ¬ (runSpectrum 100 1 [21/4, 11/2, 23/4]).Pairwise (· ≤ ·) ∧
    (runSpectrum 100 1 [21/4, 11/2, 23/4]).count 5 = 2 := by
  have e1 : rawOffset 1 (21/4) = 5 := rawOffset_eq (by norm_num) (by norm_num) (by norm_num)
  have e2 : rawOffset 1 (11/2) = 5 := rawOffset_eq (by norm_num) (by norm_num) (by norm_num)
  have e3 : rawOffset 1 (23/4) = 5 := rawOffset_eq (by norm_num) (by norm_num) (by norm_num)
  have hrun : runSpectrum 100 1 [21/4, 11/2, 23/4] = [5, 6, 5] := by
    rw [runSpectrum, List.map_cons, List.map_cons, List.map_cons, List.map_nil,
      e1, e2, e3]
    decide
  refine ⟨by norm_num, hrun, ?_, ?_⟩
  · rw [hrun]; decide
  · rw [hrun]; decide

/-- C1 amended: the painted column sequence is strictly increasing — hence
non-decreasing with no column ever repainted — for every message sequence
whose computed raw pixel offsets are strictly increasing (with merely
strictly increasing timestamps, three messages can truncate to the same
offset and a previously painted column is then repainted, see the
counterexample). Unconditionally, when a message's computed offset equals
`last_px` (and is below the width), the offset actually painted is exactly
`last_px + 1` and is recorded as the new `last_px`. -/
theorem on_spectrum_monotone_of_strict_raw (width resolution : ℚ) (secs : List ℚ)
    (last_px : Int) (s : ℚ)
    (hmono : (secs.map (rawOffset resolution)).Pairwise (· < ·))
    (h0 : ∀ t ∈ secs, 0 ≤ rawOffset resolution t) :
    (runSpectrum width resolution secs).Pairwise (· < ·) ∧
    (runSpectrum width resolution secs).Nodup ∧
    (rawOffset resolution s = last_px → ¬ ((rawOffset resolution s : ℚ) ≥ width) →
      (on_spectrum width resolution last_px s).painted = [last_px + 1] ∧
      (on_spectrum width resolution last_px s).lastPx = last_px + 1) := by
  have hh : ∀ r, (secs.map (rawOffset resolution)).head? = some r → (-1 : Int) ≤ r := by
    intro r hr
    have hmem : r ∈ secs.map (rawOffset resolution) :=
      List.mem_of_mem_head? (Option.mem_def.mpr hr)
    obtain ⟨t, ht, rfl⟩ := List.mem_map.mp hmem
    have := h0 t ht
    omega
  have hrun := runSpectrumRaw_sorted width (secs.map (rawOffset resolution)) (-1) hmono hh
  refine ⟨hrun.1, hrun.1.imp (fun hab => ne_of_lt hab), ?_⟩
  intro htie hlt
  rw [on_spectrum, htie] at *
  rw [htie] at hlt
  rw [spectrum_step_not_done hlt]
  constructor
  · simp [intRange_eq_nil le_rfl]
  · simp

/-- C1 witness: messages at 0.5s, 0.75s, 1s with resolution 4 compute the
strictly increasing raw offsets 2, 3, 4, so the painted sequence is
strictly increasing and duplicate-free; a tie of the computed offset 5
(message at 2.75s, resolution 2) with `last_px = 5` paints exactly column
6. -/
theorem on_spectrum_monotone_of_strict_raw_witness :
    (runSpectrum 100 4 [1/2, 3/4, 1]).Pairwise (· < ·) ∧
    (runSpectrum 100 4 [1/2, 3/4, 1]).Nodup ∧
    (rawOffset 4 (1/2 + 3/4) = 5 → ¬ ((rawOffset 4 (1/2 + 3/4) : ℚ) ≥ 100) →
      (on_spectrum 100 4 5 (1/2 + 3/4)).painted = [5 + 1] ∧
      (on_spectrum 100 4 5 (1/2 + 3/4)).lastPx = 5 + 1) := by
  have e1 : rawOffset 4 (1/2) = 2 := rawOffset_eq (by norm_num) (by norm_num) (by norm_num)
  have e2 : rawOffset 4 (3/4) = 3 := rawOffset_eq (by norm_num) (by norm_num) (by norm_num)
  have e3 : rawOffset 4 (1 : ℚ) = 4 := rawOffset_eq (by norm_num) (by norm_num) (by norm_num)
  refine on_spectrum_monotone_of_strict_raw 100 4 [1/2, 3/4, 1] 5 (1/2 + 3/4) ?_ ?_
  · rw [List.map_cons, List.map_cons, List.map_cons, List.map_nil, e1, e2, e3]
    decide
  · intro t ht
    rcases List.mem_cons.mp ht with rfl | ht
    · rw [e1]; norm_num
    rcases List.mem_cons.mp ht with rfl | ht
    · rw [e2]; norm_num
    rcases List.mem_cons.mp ht with rfl | ht
    · rw [e3]; norm_num
    · exact absurd ht (List.not_mem_nil t)

/-- C2: a magnitude message in state GENERATE whose computed pixel offset
is at least the configured width triggers completion and paints nothing:
no column offset is emitted, `last_px` is unchanged, and `state_done` in
state GENERATE transitions to `STATE_DONE`. -/
theorem on_spectrum_width_reached (width resolution : ℚ) (last_px : Int) (seconds : ℚ)
    (h : width ≤ (rawOffset resolution seconds : ℚ)) :
    (on_spectrum width resolution last_px seconds).painted = [] ∧
    (on_spectrum width resolution last_px seconds).done = true ∧
    (on_spectrum width resolution last_px seconds).lastPx = last_px ∧
    state_done STATE_GENERATE true true = STATE_DONE := by
  unfold on_spectrum spectrum_step
  rw [if_pos (by exact_mod_cast h)]
  exact ⟨rfl, rfl, rfl, rfl⟩

/-- C2 witness: width 10, resolution 1, a message at 12 seconds computes
offset 12 ≥ 10, so nothing is painted and the state machine completes. -/
theorem on_spectrum_width_reached_witness :
    (on_spectrum 10 1 3 12).painted = [] ∧
    (on_spectrum 10 1 3 12).done = true ∧
    (on_spectrum 10 1 3 12).lastPx = 3 ∧
    state_done STATE_GENERATE true true = STATE_DONE := by
  refine on_spectrum_width_reached 10 1 3 12 ?_
  have h12 : rawOffset 1 12 = 12 := by
    rw [rawOffset, truncToInt, if_pos (by norm_num), Int.floor_eq_iff]
    norm_num
  rw [h12]
  norm_num

/-- C4: when a message's computed pixel offset exceeds `last_px` by more
than one (below the width, with at least one message already painted, i.e.
`last_px ≠ -1`), the painted columns are exactly the skipped columns
`last_px + 1, ..., offset - 1` in order, followed by the offset itself —
each handed to `paint_spectrum_at_offset` with the current message's
magnitude list — and every column strictly between `last_px` and the
offset is among the backfilled ones. The new `last_px` is the offset. -/
theorem on_spectrum_backfill (width resolution : ℚ) (last_px : Int) (s : ℚ)
    (height : Int) (noise_floor : ℚ) (mags : List ℚ)
    (hw : ¬ ((rawOffset resolution s : ℚ) ≥ width))
    (hlast : last_px ≠ -1)
    (hskip : 1 < rawOffset resolution s - last_px) :
    (on_spectrum width resolution last_px s).painted =
      intRange (last_px + 1) (rawOffset resolution s) ++ [rawOffset resolution s] ∧
    (∀ c : Int, last_px < c → c < rawOffset resolution s →
      c ∈ intRange (last_px + 1) (rawOffset resolution s)) ∧
    (∀ pr ∈ on_spectrum_writes width resolution height noise_floor last_px s mags,
      pr.2 = paint_spectrum_at_offset height noise_floor pr.1 mags) ∧
    (on_spectrum width resolution last_px s).lastPx = rawOffset resolution s := by
  have hne : rawOffset resolution s ≠ last_px := by omega
  have hpr : ∀ pr ∈ on_spectrum_writes width resolution height noise_floor last_px s mags,
      pr.2 = paint_spectrum_at_offset height noise_floor pr.1 mags := by
    intro pr hpr
    obtain ⟨c, _, rfl⟩ := List.mem_map.mp hpr
    rfl
  rw [on_spectrum, spectrum_step_not_done hw]
  refine ⟨by simp [hne, hlast], ?_, hpr, by simp [hne]⟩
  intro c h1 h2
  exact mem_intRange.mpr ⟨by omega, h2⟩

/-- C4 witness: with `last_px = 2` and a message at 6 seconds (resolution
1, width 100), the computed offset 6 skips columns 3, 4, 5; they are
backfilled in order before column 6 is painted. -/
theorem on_spectrum_backfill_witness :
    (on_spectrum 100 1 2 6).painted =
      intRange (2 + 1) (rawOffset 1 6) ++ [rawOffset 1 6] ∧
    (∀ c : Int, 2 < c → c < rawOffset 1 6 →
      c ∈ intRange (2 + 1) (rawOffset 1 6)) ∧
    (∀ pr ∈ on_spectrum_writes 100 1 4 (-100) 2 6 [-50],
      pr.2 = paint_spectrum_at_offset 4 (-100) pr.1 [-50]) ∧
    (on_spectrum 100 1 2 6).lastPx = rawOffset 1 6 := by
  have e6 : rawOffset 1 6 = 6 := rawOffset_eq (by norm_num) (by norm_num) (by norm_num)
  refine on_spectrum_backfill 100 1 2 6 4 (-100) [-50] ?_ (by norm_num) ?_
  · rw [e6]; norm_num
  · rw [e6]; norm_num

/-- C3: the claimed bound does not hold; the code has an out-of-bounds
write. With width 10, `last_px = 9` and a message at 9.5 seconds
(resolution 1), the computed offset 9 passes the width check, ties with
`last_px` and is jitter-advanced to 10; the painter then writes at column
10 = width, one past the canvas (with canvas stride `4 * width`, the write
lands at the first pixel of the next row, or past the end of the buffer
for the bottom row). -/
theorem paint_out_of_bounds_bug :
    rawOffset 1 (19/2) = 9 ∧
    (on_spectrum 10 1 9 (19/2)).painted = [10] ∧
    (paint_spectrum_at_offset 4 (-100) 10 [-50]).map PixelWrite.col = [10] ∧
    ¬ ((10 : Int) < 10) := by
  have e : rawOffset 1 (19/2) = 9 := rawOffset_eq (by norm_num) (by norm_num) (by norm_num)
  have hs : shadeOf (-100) (-50) = 1/2 := by
    rw [shadeOf, abs_of_nonpos (by norm_num)]
    norm_num
  refine ⟨e, ?_, ?_, by norm_num⟩
  · rw [on_spectrum, e]
    decide
  · rw [paint_spectrum_at_offset]
    norm_num [paintLoop, hs, List.take_succ_cons]

/-- C5: the painter leaves the canvas pixel of every band whose magnitude
is at or below the noise floor (raw shade `≤ 0`) untouched: no write of the
column paint has that band's row; and every write it does perform belongs
to a band with strictly positive shade. -/
theorem paint_skips_at_noise_floor (height : Int) (noise_floor : ℚ) (offset : Int)
    (mags : List ℚ) (i : Nat)
    (hi1 : i < mags.length) (hi2 : i < height.toNat)
    (hle : shadeOf noise_floor (mags.getD i 0) ≤ 0) :
    (∀ w ∈ paint_spectrum_at_offset height noise_floor offset mags,
      w.row ≠ height - 1 - Nat.cast i) ∧
    (∀ w ∈ paint_spectrum_at_offset height noise_floor offset mags,
      ∃ j : Nat, j < mags.length ∧ j < height.toNat ∧
        0 < shadeOf noise_floor (mags.getD j 0) ∧ w.row = height - 1 - Nat.cast j) := by
  constructor
  · intro w hw hrow
    obtain ⟨j, hj, hsj, hwe⟩ :=
      (paintLoop_mem height noise_floor offset (mags.take height.toNat) 0 w).mp hw
    rw [List.length_take] at hj
    have hj2 : j < height.toNat := by omega
    have hr : height - 1 - (Nat.cast (0 + j) : Int) = height - 1 - Nat.cast i := by
      rw [← hrow, hwe]
    have hji : j = i := by omega
    rw [getD_take mags height.toNat j hj2, hji] at hsj
    exact absurd hsj (not_lt.mpr hle)
  · intro w hw
    obtain ⟨j, hj, hsj, hwe⟩ :=
      (paintLoop_mem height noise_floor offset (mags.take height.toNat) 0 w).mp hw
    rw [List.length_take] at hj
    have hj2 : j < height.toNat := by omega
    have hj1 : j < mags.length := by omega
    rw [getD_take mags height.toNat j hj2] at hsj
    refine ⟨j, hj1, hj2, hsj, ?_⟩
    rw [hwe]
    simp

/-- C5 witness: the spec's scenario height 4, noise floor -100, magnitudes
`[-100, -50, -10, 0]`: band 0, at exactly the noise floor (shade 0), leaves
row 3 untouched, and every performed write belongs to a band with positive
shade. -/
theorem paint_skips_at_noise_floor_witness :
    (∀ w ∈ paint_spectrum_at_offset 4 (-100) 0 [-100, -50, -10, 0],
      w.row ≠ 4 - 1 - Nat.cast 0) ∧
    (∀ w ∈ paint_spectrum_at_offset 4 (-100) 0 [-100, -50, -10, 0],
      ∃ j : Nat, j < ([(-100 : ℚ), -50, -10, 0]).length ∧ j < (4 : Int).toNat ∧
        0 < shadeOf (-100) (([(-100 : ℚ), -50, -10, 0]).getD j 0) ∧
        w.row = 4 - 1 - Nat.cast j) := by
  refine paint_skips_at_noise_floor 4 (-100) 0 [-100, -50, -10, 0] 0
    (by norm_num) (by norm_num) ?_
  rw [List.getD_cons_zero, shadeOf, abs_of_nonpos (by norm_num)]
  norm_num

/-- C9 counterexample: when the duration query fails in state DURATION
(query result `none`), `App::on_duration_changed` is not fatal: it only
logs a warning, contradicting the claim that the run fails fatally with a
teardown and non-zero exit. -/
theorem on_duration_changed_not_fatal :
    (on_duration_changed 0 none).fatal = false ∧
    ¬ (on_duration_changed 0 none).fatal = true := by
  exact ⟨rfl, by decide⟩

/-- C9 amended: a failed duration query is non-fatal: the handler merely
logs a warning, `m_duration` keeps its previous value, no query outcome is
fatal, and the DURATION state still advances to SEEK on its completion
event (end-of-stream), so the run continues. -/
theorem on_duration_changed_warns_and_continues (d : Int) (q : Option Int) :
    (on_duration_changed d none).fatal = false ∧
    (on_duration_changed d none).duration = d ∧
    (on_duration_changed d q).fatal = false ∧
    state_done STATE_DURATION true true = STATE_SEEK := by
  refine ⟨rfl, rfl, ?_, rfl⟩
  cases q <;> rfl

/-- C7 counterexample: the band count is computed with two nested integer
truncations, not one floor of the exact quotient. With samplingRate 6,
maxFrequency 3, height 2 the code computes `(6/2)/trunc(1.5) = 3/1 = 3`,
while `floor((samplingRate/2) / (maxFrequency/height)) = floor(3/1.5) = 2`. -/
theorem num_bands_counterexample :
    num_bands 6 3 2 = 3 ∧
    (⌊((6 : ℚ) / 2) / ((3 : ℚ) / 2)⌋ : Int) = 2 ∧
    num_bands 6 3 2 ≠ ⌊((6 : ℚ) / 2) / ((3 : ℚ) / 2)⌋ := by
  have hbf : band_freq 3 2 = 1 := by
    rw [band_freq, truncToInt, if_pos (by norm_num), Int.floor_eq_iff]
    norm_num
  have h1 : num_bands 6 3 2 = 3 := by
    rw [num_bands, hbf]
    decide
  have h2 : (⌊((6 : ℚ) / 2) / ((3 : ℚ) / 2)⌋ : Int) = 2 := by
    rw [Int.floor_eq_iff]
    norm_num
  refine ⟨h1, h2, ?_⟩
  rw [h1, h2]
  decide

/-- C7 amended: for positive inputs (band frequency at least 1, so the C
divisions are defined), the band count configured on the analysis element
is `floor(floor(samplingRate/2) / floor(maxFrequency/height))` — each
quotient floored separately, matching the code's integer arithmetic — and
the truncated band frequency is `floor(maxFrequency/height)`. -/
theorem num_bands_nested_floor (sr : Int) (mf h : ℚ)
    (hsr : 0 ≤ sr) (hbf : 1 ≤ mf / h) :
    num_bands sr mf h = ⌊((⌊(sr : ℚ) / 2⌋ : ℤ) : ℚ) / ((⌊mf / h⌋ : ℤ) : ℚ)⌋ ∧
    band_freq mf h = ⌊mf / h⌋ := by
  have hbf0 : (0 : ℚ) ≤ mf / h := le_trans zero_le_one hbf
  have hb : band_freq mf h = ⌊mf / h⌋ := by rw [band_freq, truncToInt, if_pos hbf0]
  have hbpos : 0 < ⌊mf / h⌋ := by
    have h1 : (1 : ℤ) ≤ ⌊mf / h⌋ := Int.le_floor.mpr (by exact_mod_cast hbf)
    omega
  have hfl2 : ⌊(sr : ℚ) / 2⌋ = sr / 2 := by
    have h2 := Rat.floor_intCast_div_natCast sr 2
    simpa using h2
  have hn : Int.tdiv sr 2 = sr / 2 := Int.tdiv_eq_ediv hsr (by norm_num)
  have hnn : 0 ≤ sr / 2 := Int.ediv_nonneg hsr (by norm_num)
  refine ⟨?_, hb⟩
  rw [num_bands, hb, hn, Int.tdiv_eq_ediv hnn hbpos.le, hfl2,
    floor_intCast_div_intCast _ _ hbpos]

/-- C7 witness: the default configuration, samplingRate 44100,
maxFrequency 12000, height 200: band frequency 60 and
`floor(22050 / 60) = 367` bands. -/
theorem num_bands_nested_floor_witness :
    (num_bands 44100 12000 200 =
      ⌊((⌊(44100 : ℤ) / (2 : ℚ)⌋ : ℤ) : ℚ) / ((⌊(12000 : ℚ) / 200⌋ : ℤ) : ℚ)⌋ ∧
    band_freq 12000 200 = ⌊(12000 : ℚ) / 200⌋) := by
  exact num_bands_nested_floor 44100 12000 200 (by norm_num) (by norm_num)

/-- C8 amended: the level recorder stores, keyed by the message timestamp,
the maximum of the noise floor and the per-channel RMS values (the fold
starts at `m_options.noise_floor`, so a message whose channels are all
below the noise floor is recorded as the noise floor itself, not as the
plain channel maximum); the first message initialises both the running
peak and the running minimum to that same stored value, and every later
message updates them with `max` / `min` respectively. -/
theorem on_level_records_clamped_max (noise_floor : ℚ) (st : LevelState) (seconds : ℚ)
    (rms : List ℚ) :
    mapLookup seconds (on_level noise_floor st seconds rms).levels
      = some (max_channel noise_floor rms) ∧
    (on_level noise_floor st seconds rms).peak_rms =
      (if st.levels = [] then max_channel noise_floor rms
        else max (max_channel noise_floor rms) st.peak_rms) ∧
    (on_level noise_floor st seconds rms).min_rms =
      (if st.levels = [] then max_channel noise_floor rms
        else min (max_channel noise_floor rms) st.min_rms) := by
  by_cases h : st.levels = []
  · simp [on_level, h, mapLookup_mapInsert]
  · simp [on_level, h, mapLookup_mapInsert]

/-- C8 counterexample: the stored value is not the plain maximum over the
message's channels. With noise floor -100 and a single channel at -120 dB,
the recorder stores -100 (the clamped fold result), while the maximum over
the per-channel values is -120. -/
theorem on_level_clamp_counterexample :
    mapLookup 1 (on_level (-100) ⟨[], -100, -100⟩ 1 [-120]).levels = some (-100) ∧
    specChannelsMax [-120] = some (-120) ∧
    ¬ ((-100 : ℚ) = -120) := by
  have hmc : max_channel (-100) [-120] = (-100 : ℚ) := by
    rw [max_channel, List.foldl_cons, List.foldl_nil]
    exact max_eq_left (by norm_num)
  refine ⟨?_, ?_, by norm_num⟩
  · simp [on_level, hmc, mapInsert, mapLookup]
  · rw [specChannelsMax, List.foldl_nil]

/-- C10: with the grid enabled and an empty level track, the final
composition dereferences `m_levels.rbegin ()` on an empty map
(sonogen.cc:774) — undefined behaviour, modelled as `none` — so the
composition does not complete, contradicting the claim that it must not
crash. With the grid disabled, or with at least one level entry, the
composition completes. -/
theorem draw_sonogram_empty_levels_crash :
    draw_sonogram true [] = none ∧
    draw_levels_path ([] : List (ℚ × ℚ)) = none ∧
    draw_sonogram false [] = some false ∧
    draw_sonogram true [(0, -30)] = some true := by
  exact ⟨rfl, rfl, rfl, rfl⟩

end Sonogen
